import Mathlib

/-!
Verification of the transcript timestamp-correlation and entity-grouping
pipeline (Segment Index, Offset Locator, Time Interpolator, Extraction
Mapper, Profile Aggregator).  The repository carries this core as an
implementation blueprint (the "Transcript → Timestamp Mapping" procedure)
plus a detailed design document; the executable definitions below embed
that design.  Seconds are modelled as rationals, character offsets as
integers (extraction offsets) and naturals (index offsets).
-/

set_option maxHeartbeats 1000000

namespace Pipeline

/-- One diarized, speaker-attributed span of the transcript, with fields
`start_s`, `end_s`, `speaker`, `text` as in the blueprint's
`TranscriptSegment`. -/
structure TranscriptSegment where
  start_s : ℚ
  end_s : ℚ
  speaker : String
  text : String
  deriving DecidableEq

/-- One triple of the Segment Index: the segment's position in the
sequence and its cumulative start/end character offsets in the
concatenation of all segment texts. -/
structure IndexEntry where
  seg : Nat
  cumStart : Nat
  cumEnd : Nat
  deriving DecidableEq

/-- One raw span produced by the extraction collaborator: a category, the
character offsets of the span in the concatenated transcript, the covered
text and category-specific attributes. -/
structure Extraction where
  category : String
  start_char : Int
  end_char : Int
  text : String
  attributes : List (String × Option String)
  deriving DecidableEq

/-- A mapped, timestamp-resolved extraction. -/
structure WorkflowEntity where
  category : String
  text : String
  start_s : ℚ
  end_s : ℚ
  speaker : Option String
  attributes : List (String × Option String)
  deriving DecidableEq

/-- The final bucketed output: one ordered list of entities per fixed
category, plus the permissive catch-all bucket. -/
structure WorkflowProfile where
  planning_goals : List WorkflowEntity
  context_management : List WorkflowEntity
  guardrails : List WorkflowEntity
  iteration_style : List WorkflowEntity
  tools : List WorkflowEntity
  orchestration : List WorkflowEntity
  deployment : List WorkflowEntity
  quotes : List WorkflowEntity
  unclassified : List WorkflowEntity
  deriving DecidableEq

/-- Error taxonomy of the mapping call: `rangeError` names the
out-of-bounds offset and the valid range's upper end; `dataError` is the
fatal bad-segment-data failure. -/
inductive MapError where
  | rangeError (pos : Int) (total : Nat)
  | dataError
  deriving DecidableEq

/-- Total number of characters in the concatenation of all segment
texts (no separator is inserted between segments). -/
def lensum (segs : List TranscriptSegment) : Nat :=
  (segs.map (fun s => s.text.length)).sum

/-- Cumulative start offset of segment `k`: the sum of the text lengths
of segments `0..k-1`. -/
def cumStartAt (segs : List TranscriptSegment) (k : Nat) : Nat :=
  lensum (segs.take k)

/-- Text length of segment `k` (0 when `k` is out of bounds). -/
def lenAt (segs : List TranscriptSegment) (k : Nat) : Nat :=
  match segs[k]? with
  | some s => s.text.length
  | none => 0

/-- Builder loop of the Segment Index: `i` is the position of the next
segment, `acc` the cumulative character offset reached so far. -/
def buildAux (i acc : Nat) : List TranscriptSegment → List IndexEntry
  | [] => []
  | s :: rest => ⟨i, acc, acc + s.text.length⟩ :: buildAux (i + 1) (acc + s.text.length) rest

/-- Segment Index construction: one `(segment_index, cumulative_start_char,
cumulative_end_char)` triple per segment, in order.  Modelled from the
spec: the repository holds this component only as the blueprint step
"store segments[i].cum_start_char" plus the Segment Index contract. -/
def build (segs : List TranscriptSegment) : List IndexEntry :=
  buildAux 0 0 segs

/-- Cumulative end of the last segment of the index (0 for an empty
index); the exclusive upper end of the valid position range. -/
def totalLength (idx : List IndexEntry) : Nat :=
  match idx.getLast? with
  | some e => e.cumEnd
  | none => 0

/-- The blueprint's lookup rule: the first index entry `e` with
`e.cumStart <= pos < e.cumEnd`, returned as `(segment_index,
local_offset)`.  Zero-length segments can never satisfy the bounds, so
they are skipped automatically. -/
def findOwner (pos : Nat) : List IndexEntry → Option (Nat × Nat)
  | [] => none
  | e :: rest =>
    if e.cumStart ≤ pos ∧ pos < e.cumEnd then some (e.seg, pos - e.cumStart)
    else findOwner pos rest

/-- End-offset lookup: the first index entry `e` with
`e.cumStart < pos <= e.cumEnd`, so a position equal to a segment's
cumulative end belongs to the segment it closes, not the next one. -/
def findCloser (pos : Nat) : List IndexEntry → Option (Nat × Nat)
  | [] => none
  | e :: rest =>
    if e.cumStart < pos ∧ pos ≤ e.cumEnd then some (e.seg, pos - e.cumStart)
    else findCloser pos rest

/-- Last index entry whose segment has non-empty text, if any. -/
def lastNonEmpty (idx : List IndexEntry) : Option IndexEntry :=
  idx.foldl (fun r e => if e.cumStart < e.cumEnd then some e else r) none

/-- Core of the Offset Locator on an in-range natural position.
Modelled from the spec: a position strictly below `total_length` belongs
to the (unique, non-zero-length) segment whose half-open cumulative span
contains it — which is the segment that starts at the position when the
position sits exactly on a boundary; `total_length` itself belongs to the
last non-empty segment, clamped to its text length, falling back to the
last segment when every text is empty. -/
def locateNat (idx : List IndexEntry) (pos : Nat) : Except MapError (Nat × Nat) :=
  if pos = totalLength idx then
    match lastNonEmpty idx with
    | some e => .ok (e.seg, e.cumEnd - e.cumStart)
    | none =>
      match idx.getLast? with
      | some e => .ok (e.seg, 0)
      | none => .error (.rangeError (pos : Int) (totalLength idx))
  else
    match findOwner pos idx with
    | some r => .ok r
    | none => .error (.rangeError (pos : Int) (totalLength idx))

/-- Offset Locator: map a global character position to its owning
segment and local offset; positions outside `[0, total_length]` fail with
a `rangeError` naming the offending value and the valid range. -/
def locate (idx : List IndexEntry) (pos : Int) : Except MapError (Nat × Nat) :=
  if pos < 0 ∨ (totalLength idx : Int) < pos then .error (.rangeError pos (totalLength idx))
  else locateNat idx pos.toNat

/-- End-offset variant of the Offset Locator used for `end_char`:
a boundary position belongs to the segment it closes (the earlier
segment).  Position 0 (an empty span at the very start) degenerates to
the ordinary locator. -/
def locateEnd (idx : List IndexEntry) (pos : Int) : Except MapError (Nat × Nat) :=
  if pos < 0 ∨ (totalLength idx : Int) < pos then .error (.rangeError pos (totalLength idx))
  else if pos.toNat = 0 then locateNat idx 0
  else
    match findCloser pos.toNat idx with
    | some r => .ok r
    | none => .error (.rangeError pos (totalLength idx))

/-- Time Interpolator:
`t = start_s + (local_offset / max(1, length(text))) * (end_s - start_s)`,
clamped to `[start_s, end_s]`; the `max 1` guard avoids division by zero
on empty-text segments. -/
def interpolate (seg : TranscriptSegment) (localOffset : Nat) : ℚ :=
  max seg.start_s (min seg.end_s
    (seg.start_s + ((localOffset : ℚ) / max 1 (seg.text.length : ℚ)) * (seg.end_s - seg.start_s)))

/-- Extraction Mapper, single extraction: resolve `start_char` with the
ordinary locator and `end_char` with the end-offset locator, interpolate
both timestamps, and attach the speaker of the segment owning the start
position.  A locator failure propagates. -/
def map_one (idx : List IndexEntry) (segs : List TranscriptSegment) (ex : Extraction) :
    Except MapError WorkflowEntity :=
  match locate idx ex.start_char, locateEnd idx ex.end_char with
  | .ok (k1, off1), .ok (k2, off2) =>
    match segs[k1]?, segs[k2]? with
    | some s1, some s2 =>
      .ok ⟨ex.category, ex.text, interpolate s1 off1, interpolate s2 off2,
        some s1.speaker, ex.attributes⟩
    | _, _ => .error (.rangeError ex.start_char (totalLength idx))
  | .error err, _ => .error err
  | .ok _, .error err => .error err

/-- Validation: the segment sequence is sorted by non-decreasing start
time. -/
def segsSorted : List TranscriptSegment → Bool
  | [] => true
  | [_] => true
  | a :: b :: rest => decide (a.start_s ≤ b.start_s) && segsSorted (b :: rest)

/-- Validation: no segment has negative duration. -/
def segsNonNeg (segs : List TranscriptSegment) : Bool :=
  segs.all (fun s => decide (s.start_s ≤ s.end_s))

/-- Batch loop of the Extraction Mapper: map every extraction, keeping
successes as entities and failures as `(extraction, reason)` skip
records, never aborting on a single failure. -/
def mapBatch (idx : List IndexEntry) (segs : List TranscriptSegment) :
    List Extraction → List WorkflowEntity × List (Extraction × MapError)
  | [] => ([], [])
  | ex :: rest =>
    match map_one idx segs ex, mapBatch idx segs rest with
    | .ok e, (es, sk) => (e :: es, sk)
    | .error err, (es, sk) => (es, (ex, err) :: sk)

/-- Extraction Mapper, whole batch: validate the segment sequence once
and fail fast with a `dataError` before touching any extraction when it
is unsorted or contains a negative-duration segment; otherwise map every
extraction, collecting failures as skip records. -/
def map_all (segs : List TranscriptSegment) (exts : List Extraction) :
    Except MapError (List WorkflowEntity × List (Extraction × MapError)) :=
  if segsSorted segs && segsNonNeg segs then
    .ok (mapBatch (build segs) segs exts)
  else
    .error .dataError

/-- An extraction whose two offsets both lie in `[0, total_length]` of
the given segment sequence. -/
def inRange (segs : List TranscriptSegment) (ex : Extraction) : Bool :=
  decide (0 ≤ ex.start_char) && decide (ex.start_char ≤ (lensum segs : Int)) &&
  decide (0 ≤ ex.end_char) && decide (ex.end_char ≤ (lensum segs : Int))

/-- Route an unknown-category entity to the catch-all bucket, preserving
the original category name as an attribute. -/
def unclassifiedTag (e : WorkflowEntity) : WorkflowEntity :=
  { e with attributes := e.attributes ++ [("original_category", some e.category)] }

/-- The fixed closed category set that owns a bucket of its own in the
profile. -/
def knownCategory (c : String) : Bool :=
  c == "planning_goal" || c == "context_strategy" || c == "guardrail" ||
  c == "iteration_pattern" || c == "tool_usage" || c == "orchestration" ||
  c == "deployment_step" || c == "quote"

/-- The empty profile. -/
def emptyProfile : WorkflowProfile :=
  ⟨[], [], [], [], [], [], [], [], []⟩

/-- Insert one entity into the bucket determined by its category;
unknown categories go to the catch-all bucket instead of being dropped
or raising. -/
def aggInsert (e : WorkflowEntity) (p : WorkflowProfile) : WorkflowProfile :=
  if e.category == "planning_goal" then { p with planning_goals := e :: p.planning_goals }
  else if e.category == "context_strategy" then
    { p with context_management := e :: p.context_management }
  else if e.category == "guardrail" then { p with guardrails := e :: p.guardrails }
  else if e.category == "iteration_pattern" then
    { p with iteration_style := e :: p.iteration_style }
  else if e.category == "tool_usage" then { p with tools := e :: p.tools }
  else if e.category == "orchestration" then { p with orchestration := e :: p.orchestration }
  else if e.category == "deployment_step" then { p with deployment := e :: p.deployment }
  else if e.category == "quote" then { p with quotes := e :: p.quotes }
  else { p with unclassified := unclassifiedTag e :: p.unclassified }

/-- Profile Aggregator: a pure single-pass fold bucketing the entities
by category, preserving within each bucket the relative input order. -/
def aggregate : List WorkflowEntity → WorkflowProfile
  | [] => emptyProfile
  | e :: rest => aggInsert e (aggregate rest)

/-- Total number of entities across all buckets of a profile, the
catch-all bucket included. -/
def totalCount (p : WorkflowProfile) : Nat :=
  p.planning_goals.length + p.context_management.length + p.guardrails.length +
  p.iteration_style.length + p.tools.length + p.orchestration.length +
  p.deployment.length + p.quotes.length + p.unclassified.length

/-! ### Concrete fixtures -/

/-- The spec scenario transcript: two segments, concatenation
"hello worldgoodbye" (18 characters). -/
def segW : List TranscriptSegment :=
  [⟨0, 10, "A", "hello world"⟩, ⟨10, 20, "B", "goodbye"⟩]

/-- Sorted, non-negative-duration, but overlapping segments: segment 0
spans seconds 0 to 100, segment 1 spans 10 to 20. -/
def segOverlap : List TranscriptSegment :=
  [⟨0, 100, "A", "aaaaaaaaaa"⟩, ⟨10, 20, "B", "bbbb"⟩]

/-- An extraction whose span crosses from segment 0 into segment 1 of
`segOverlap`. -/
def exOverlap : Extraction := ⟨"quote", 9, 12, "aab", []⟩

/-- The entity `map_one` produces for `exOverlap` over `segOverlap`:
start interpolates to second 90, end to second 15. -/
def entOverlap : WorkflowEntity := ⟨"quote", "aab", 90, 15, some "A", []⟩

/-- An extraction spanning characters 6 to 11 ("world") of the spec
scenario transcript. -/
def exGood : Extraction := ⟨"quote", 6, 11, "world", []⟩

/-- An extraction whose offsets lie beyond the scenario transcript's
total length of 18. -/
def exBad : Extraction := ⟨"quote", 100, 120, "x", []⟩

/-- The degenerate empty-span extraction at offset 0. -/
def exZero : Extraction := ⟨"quote", 0, 0, "", []⟩

/-- Segments out of order by start time. -/
def segUnsorted : List TranscriptSegment :=
  [⟨10, 20, "A", "x"⟩, ⟨0, 5, "B", "y"⟩]

/-- A silent segment: positive duration, empty text. -/
def segSilent : TranscriptSegment := ⟨0, 5, "A", ""⟩

/-! ### Basic facts about the Segment Index -/

theorem lensum_nil : lensum [] = 0 := rfl

theorem lensum_cons (s : TranscriptSegment) (rest : List TranscriptSegment) :
    lensum (s :: rest) = s.text.length + lensum rest := by
  simp [lensum]

theorem cumStartAt_zero (segs : List TranscriptSegment) : cumStartAt segs 0 = 0 := rfl

theorem cumStartAt_cons_succ (s : TranscriptSegment) (rest : List TranscriptSegment) (k : Nat) :
    cumStartAt (s :: rest) (k + 1) = s.text.length + cumStartAt rest k := by
  simp [cumStartAt, lensum]

theorem lenAt_cons_zero (s : TranscriptSegment) (rest : List TranscriptSegment) :
    lenAt (s :: rest) 0 = s.text.length := by
  simp [lenAt]

theorem lenAt_cons_succ (s : TranscriptSegment) (rest : List TranscriptSegment) (k : Nat) :
    lenAt (s :: rest) (k + 1) = lenAt rest k := by
  simp [lenAt]

theorem cumStartAt_le_lensum (segs : List TranscriptSegment) (k : Nat) :
    cumStartAt segs k ≤ lensum segs := by
  induction segs generalizing k with
  | nil => simp [cumStartAt, lensum]
  | cons s rest ih =>
    cases k with
    | zero => simp [cumStartAt_zero]
    | succ k =>
      rw [cumStartAt_cons_succ, lensum_cons]
      exact Nat.add_le_add_left (ih k) _

theorem cumStartAt_mono (segs : List TranscriptSegment) {a b : Nat} (h : a ≤ b) :
    cumStartAt segs a ≤ cumStartAt segs b := by
  induction segs generalizing a b with
  | nil => simp [cumStartAt, lensum]
  | cons s rest ih =>
    cases a with
    | zero => simp [cumStartAt_zero]
    | succ a =>
      cases b with
      | zero => omega
      | succ b =>
        rw [cumStartAt_cons_succ, cumStartAt_cons_succ]
        exact Nat.add_le_add_left (ih (by omega)) _

theorem cumStartAt_succ (segs : List TranscriptSegment) (k : Nat) (hk : k < segs.length) :
    cumStartAt segs (k + 1) = cumStartAt segs k + lenAt segs k := by
  induction segs generalizing k with
  | nil => simp at hk
  | cons s rest ih =>
    cases k with
    | zero => simp [cumStartAt_cons_succ, cumStartAt_zero, lenAt_cons_zero]
    | succ k =>
      rw [cumStartAt_cons_succ, cumStartAt_cons_succ, lenAt_cons_succ,
        ih k (by simpa using hk)]
      omega

theorem buildAux_length (segs : List TranscriptSegment) (i acc : Nat) :
    (buildAux i acc segs).length = segs.length := by
  induction segs generalizing i acc with
  | nil => rfl
  | cons s rest ih => simp [buildAux, ih]

theorem build_length (segs : List TranscriptSegment) :
    (build segs).length = segs.length := buildAux_length segs 0 0

theorem buildAux_getElem (segs : List TranscriptSegment) (i acc k : Nat)
    (s : TranscriptSegment) (hk : segs[k]? = some s) :
    (buildAux i acc segs)[k]? =
      some ⟨i + k, acc + cumStartAt segs k, acc + cumStartAt segs k + s.text.length⟩ := by
  induction segs generalizing i acc k with
  | nil => simp at hk
  | cons t rest ih =>
    cases k with
    | zero =>
      simp only [List.getElem?_cons_zero, Option.some.injEq] at hk
      subst hk
      simp [buildAux, cumStartAt_zero]
    | succ k =>
      simp only [List.getElem?_cons_succ] at hk
      have := ih (i + 1) (acc + t.text.length) k hk
      simp only [buildAux, List.getElem?_cons_succ, this, cumStartAt_cons_succ]
      refine congrArg some ?_
      refine congrArg₂ (fun a b => IndexEntry.mk a b (b + s.text.length)) ?_ ?_ <;> omega

theorem buildAux_getLast (segs : List TranscriptSegment) (i acc : Nat) (hne : segs ≠ []) :
    (buildAux i acc segs).getLast? =
      some ⟨i + (segs.length - 1), acc + cumStartAt segs (segs.length - 1),
        acc + lensum segs⟩ := by
  induction segs generalizing i acc with
  | nil => exact absurd rfl hne
  | cons s rest ih =>
    cases rest with
    | nil => simp [buildAux, cumStartAt_zero, lensum_cons, lensum_nil]
    | cons t rest2 =>
      have h := ih (i + 1) (acc + s.text.length) (by simp)
      simp only [buildAux] at h ⊢
      rw [List.getLast?_cons_cons, h]
      simp only [Option.some.injEq, IndexEntry.mk.injEq, List.length_cons, Nat.add_sub_cancel]
      refine ⟨by omega, ?_, ?_⟩
      · rw [cumStartAt_cons_succ]
        omega
      · rw [lensum_cons s (t :: rest2)]
        omega

theorem totalLength_buildAux (segs : List TranscriptSegment) (i acc : Nat)
    (hne : segs ≠ []) :
    totalLength (buildAux i acc segs) = acc + lensum segs := by
  simp [totalLength, buildAux_getLast segs i acc hne]

theorem totalLength_build (segs : List TranscriptSegment) :
    totalLength (build segs) = lensum segs := by
  cases segs with
  | nil => rfl
  | cons s rest => simpa using totalLength_buildAux (s :: rest) 0 0 (by simp)

/-! ### Search characterizations -/

theorem findOwner_buildAux (segs : List TranscriptSegment) (i acc pos : Nat)
    (h1 : acc ≤ pos) (h2 : pos < acc + lensum segs) :
    ∃ j, j < segs.length ∧
      findOwner pos (buildAux i acc segs) = some (i + j, pos - (acc + cumStartAt segs j)) ∧
      acc + cumStartAt segs j ≤ pos ∧
      pos < acc + cumStartAt segs j + lenAt segs j := by
  induction segs generalizing i acc with
  | nil =>
    rw [lensum_nil] at h2
    omega
  | cons s rest ih =>
    by_cases hc : pos < acc + s.text.length
    · refine ⟨0, by simp, ?_, ?_, ?_⟩
      · simp [buildAux, findOwner, cumStartAt_zero, h1, hc]
      · simpa [cumStartAt_zero] using h1
      · simpa [cumStartAt_zero, lenAt_cons_zero] using hc
    · have h2' : pos < acc + s.text.length + lensum rest := by
        rw [lensum_cons] at h2
        omega
      obtain ⟨j, hj, hfind, hlo, hhi⟩ := ih (i + 1) (acc + s.text.length) (by omega) h2'
      refine ⟨j + 1, by simpa using Nat.succ_lt_succ hj, ?_, ?_, ?_⟩
      · rw [show buildAux i acc (s :: rest) =
          ⟨i, acc, acc + s.text.length⟩ :: buildAux (i + 1) (acc + s.text.length) rest
          from rfl]
        rw [findOwner]
        rw [if_neg (by simp; omega)]
        rw [hfind]
        rw [cumStartAt_cons_succ]
        refine congrArg some ?_
        refine congrArg₂ Prod.mk (by omega) (by omega)
      · rw [cumStartAt_cons_succ]
        omega
      · rw [cumStartAt_cons_succ, lenAt_cons_succ]
        omega

theorem findCloser_buildAux (segs : List TranscriptSegment) (i acc pos : Nat)
    (h1 : acc < pos) (h2 : pos ≤ acc + lensum segs) :
    ∃ j, j < segs.length ∧
      findCloser pos (buildAux i acc segs) = some (i + j, pos - (acc + cumStartAt segs j)) ∧
      acc + cumStartAt segs j < pos ∧
      pos ≤ acc + cumStartAt segs j + lenAt segs j := by
  induction segs generalizing i acc with
  | nil =>
    rw [lensum_nil] at h2
    omega
  | cons s rest ih =>
    by_cases hc : pos ≤ acc + s.text.length
    · refine ⟨0, by simp, ?_, ?_, ?_⟩
      · simp [buildAux, findCloser, cumStartAt_zero, h1, hc]
      · simpa [cumStartAt_zero] using h1
      · simpa [cumStartAt_zero, lenAt_cons_zero] using hc
    · have h2' : pos ≤ acc + s.text.length + lensum rest := by
        rw [lensum_cons] at h2
        omega
      obtain ⟨j, hj, hfind, hlo, hhi⟩ := ih (i + 1) (acc + s.text.length) (by omega) h2'
      refine ⟨j + 1, by simpa using Nat.succ_lt_succ hj, ?_, ?_, ?_⟩
      · rw [show buildAux i acc (s :: rest) =
          ⟨i, acc, acc + s.text.length⟩ :: buildAux (i + 1) (acc + s.text.length) rest
          from rfl]
        rw [findCloser]
        rw [if_neg (by simp; omega)]
        rw [hfind]
        rw [cumStartAt_cons_succ]
        refine congrArg some ?_
        refine congrArg₂ Prod.mk (by omega) (by omega)
      · rw [cumStartAt_cons_succ]
        omega
      · rw [cumStartAt_cons_succ, lenAt_cons_succ]
        omega

theorem lastNonEmpty_buildAux (segs : List TranscriptSegment) (i acc : Nat)
    (r : Option IndexEntry) :
    (lensum segs = 0 →
      (buildAux i acc segs).foldl (fun r e => if e.cumStart < e.cumEnd then some e else r) r
        = r) ∧
    (lensum segs ≠ 0 →
      ∃ j, j < segs.length ∧ lenAt segs j ≠ 0 ∧
        (buildAux i acc segs).foldl (fun r e => if e.cumStart < e.cumEnd then some e else r) r
          = some ⟨i + j, acc + cumStartAt segs j, acc + cumStartAt segs j + lenAt segs j⟩ ∧
        cumStartAt segs j + lenAt segs j = lensum segs) := by
  induction segs generalizing i acc r with
  | nil => exact ⟨fun _ => rfl, fun h => absurd rfl h⟩
  | cons s rest ih =>
    have hstep : (buildAux i acc (s :: rest)).foldl
        (fun r e => if e.cumStart < e.cumEnd then some e else r) r =
        (buildAux (i + 1) (acc + s.text.length) rest).foldl
          (fun r e => if e.cumStart < e.cumEnd then some e else r)
          (if acc < acc + s.text.length then some ⟨i, acc, acc + s.text.length⟩ else r) := by
      rfl
    constructor
    · intro h0
      rw [lensum_cons] at h0
      have hs : s.text.length = 0 := by omega
      have hr : lensum rest = 0 := by omega
      rw [hstep, if_neg (by omega)]
      exact (ih (i + 1) (acc + s.text.length) r).1 hr
    · intro hne
      rw [lensum_cons] at hne
      by_cases hr : lensum rest = 0
      · have hs : s.text.length ≠ 0 := by omega
        refine ⟨0, by simp, by simpa [lenAt_cons_zero] using hs, ?_, ?_⟩
        · rw [hstep, if_pos (by omega)]
          rw [(ih (i + 1) (acc + s.text.length)
            (some ⟨i, acc, acc + s.text.length⟩)).1 hr]
          simp [cumStartAt_zero, lenAt_cons_zero]
        · rw [cumStartAt_zero, lenAt_cons_zero, lensum_cons]
          omega
      · obtain ⟨j, hj, hlen, hfold, hsum⟩ :=
          (ih (i + 1) (acc + s.text.length)
            (if acc < acc + s.text.length then some ⟨i, acc, acc + s.text.length⟩ else r)).2 hr
        refine ⟨j + 1, by simpa using Nat.succ_lt_succ hj,
          by simpa [lenAt_cons_succ] using hlen, ?_, ?_⟩
        · rw [hstep, hfold]
          rw [cumStartAt_cons_succ, lenAt_cons_succ]
          simp only [Option.some.injEq, IndexEntry.mk.injEq]
          refine ⟨by omega, by omega, by omega⟩
        · rw [cumStartAt_cons_succ, lenAt_cons_succ, lensum_cons]
          omega

theorem cumEnd_le_of_mem_buildAux (segs : List TranscriptSegment) (i acc : Nat)
    (e : IndexEntry) (he : e ∈ buildAux i acc segs) :
    e.cumEnd ≤ acc + lensum segs := by
  induction segs generalizing i acc with
  | nil => simp [buildAux] at he
  | cons s rest ih =>
    simp only [buildAux, List.mem_cons] at he
    rcases he with he | he
    · subst he
      simp only [lensum_cons]
      simp
    · have := ih (i + 1) (acc + s.text.length) he
      rw [lensum_cons]
      omega

theorem findOwner_eq_none (pos : Nat) (idx : List IndexEntry)
    (h : ∀ e ∈ idx, ¬(e.cumStart ≤ pos ∧ pos < e.cumEnd)) :
    findOwner pos idx = none := by
  induction idx with
  | nil => rfl
  | cons e rest ih =>
    rw [findOwner, if_neg (h e (by simp))]
    exact ih (fun x hx => h x (by simp [hx]))

/-! ### Offset Locator characterizations -/

theorem locateNat_lt (segs : List TranscriptSegment) (pos : Nat)
    (h : pos < lensum segs) :
    ∃ j, j < segs.length ∧
      locateNat (build segs) pos = .ok (j, pos - cumStartAt segs j) ∧
      cumStartAt segs j ≤ pos ∧ pos < cumStartAt segs j + lenAt segs j := by
  obtain ⟨j, hj, hfind, hlo, hhi⟩ := findOwner_buildAux segs 0 0 pos (Nat.zero_le _) (by omega)
  refine ⟨j, hj, ?_, by omega, by omega⟩
  rw [locateNat, if_neg (by rw [totalLength_build]; omega)]
  rw [show build segs = buildAux 0 0 segs from rfl, hfind]
  simp

theorem locateNat_total (segs : List TranscriptSegment) (h : lensum segs ≠ 0) :
    ∃ j, j < segs.length ∧
      locateNat (build segs) (lensum segs) = .ok (j, lenAt segs j) ∧
      lenAt segs j ≠ 0 ∧ cumStartAt segs j + lenAt segs j = lensum segs := by
  obtain ⟨j, hj, hlen, hfold, hsum⟩ := (lastNonEmpty_buildAux segs 0 0 none).2 h
  refine ⟨j, hj, ?_, hlen, hsum⟩
  rw [locateNat, if_pos (by rw [totalLength_build])]
  rw [show lastNonEmpty (build segs) =
    (buildAux 0 0 segs).foldl (fun r e => if e.cumStart < e.cumEnd then some e else r) none
    from rfl, hfold]
  simp

theorem locateNat_total_empty (segs : List TranscriptSegment) (hne : segs ≠ [])
    (h : lensum segs = 0) :
    locateNat (build segs) 0 = .ok (segs.length - 1, 0) ∧
      cumStartAt segs (segs.length - 1) = 0 := by
  have hfold := (lastNonEmpty_buildAux segs 0 0 none).1 h
  have hlast := buildAux_getLast segs 0 0 hne
  constructor
  · rw [locateNat, if_pos (by rw [totalLength_build, h])]
    rw [show lastNonEmpty (build segs) =
      (buildAux 0 0 segs).foldl (fun r e => if e.cumStart < e.cumEnd then some e else r) none
      from rfl, hfold]
    rw [show (build segs).getLast? = (buildAux 0 0 segs).getLast? from rfl, hlast]
    simp
  · have h1 := cumStartAt_le_lensum segs (segs.length - 1)
    omega

theorem locate_ok (segs : List TranscriptSegment) (hne : segs ≠ []) (pos : Int)
    (h0 : 0 ≤ pos) (h1 : pos ≤ (lensum segs : Int)) :
    ∃ k off, locate (build segs) pos = .ok (k, off) ∧ k < segs.length ∧
      off ≤ lenAt segs k ∧ cumStartAt segs k + off = pos.toNat := by
  have hrange : ¬(pos < 0 ∨ (totalLength (build segs) : Int) < pos) := by
    rw [totalLength_build]
    omega
  by_cases hlt : pos.toNat < lensum segs
  · obtain ⟨j, hj, hloc, hlo, hhi⟩ := locateNat_lt segs pos.toNat hlt
    refine ⟨j, pos.toNat - cumStartAt segs j, ?_, hj, by omega, by omega⟩
    rw [locate, if_neg hrange, hloc]
  · have heq : pos.toNat = lensum segs := by omega
    by_cases hz : lensum segs = 0
    · obtain ⟨hloc, hcum⟩ := locateNat_total_empty segs hne hz
      refine ⟨segs.length - 1, 0, ?_, ?_, by omega, by omega⟩
      · rw [locate, if_neg hrange, show pos.toNat = 0 from by omega, hloc]
      · cases segs with
        | nil => exact absurd rfl hne
        | cons s rest => simp
    · obtain ⟨j, hj, hloc, hlen, hsum⟩ := locateNat_total segs hz
      refine ⟨j, lenAt segs j, ?_, hj, le_refl _, by omega⟩
      rw [locate, if_neg hrange, heq, hloc]

theorem locateEnd_ok (segs : List TranscriptSegment) (hne : segs ≠ []) (pos : Int)
    (h0 : 0 ≤ pos) (h1 : pos ≤ (lensum segs : Int)) :
    ∃ k off, locateEnd (build segs) pos = .ok (k, off) ∧ k < segs.length ∧
      off ≤ lenAt segs k ∧ cumStartAt segs k + off = pos.toNat := by
  have hrange : ¬(pos < 0 ∨ (totalLength (build segs) : Int) < pos) := by
    rw [totalLength_build]
    omega
  by_cases hz : pos.toNat = 0
  · by_cases hzl : lensum segs = 0
    · obtain ⟨hloc, hcum⟩ := locateNat_total_empty segs hne hzl
      refine ⟨segs.length - 1, 0, ?_, ?_, by omega, by omega⟩
      · rw [locateEnd, if_neg hrange, if_pos hz, hloc]
      · cases segs with
        | nil => exact absurd rfl hne
        | cons s rest => simp
    · obtain ⟨j, hj, hloc, hlo, hhi⟩ := locateNat_lt segs 0 (by omega)
      refine ⟨j, 0 - cumStartAt segs j, ?_, hj, by omega, by omega⟩
      rw [locateEnd, if_neg hrange, if_pos hz, hloc]
  · obtain ⟨j, hj, hfind, hlo, hhi⟩ :=
      findCloser_buildAux segs 0 0 pos.toNat (by omega) (by omega)
    refine ⟨j, pos.toNat - cumStartAt segs j, ?_, hj, by omega, by omega⟩
    rw [locateEnd, if_neg hrange, if_neg hz]
    rw [show build segs = buildAux 0 0 segs from rfl, hfind]
    simp

theorem locate_err (segs : List TranscriptSegment) (pos : Int)
    (h : pos < 0 ∨ (lensum segs : Int) < pos) :
    locate (build segs) pos = .error (.rangeError pos (lensum segs)) := by
  rw [locate, if_pos (by rw [totalLength_build]; exact h), totalLength_build]

theorem locateEnd_err (segs : List TranscriptSegment) (pos : Int)
    (h : pos < 0 ∨ (lensum segs : Int) < pos) :
    locateEnd (build segs) pos = .error (.rangeError pos (lensum segs)) := by
  rw [locateEnd, if_pos (by rw [totalLength_build]; exact h), totalLength_build]

theorem locate_empty (pos : Int) :
    (locate (build []) pos).isOk = false := by
  by_cases h : pos < 0 ∨ (totalLength (build []) : Int) < pos
  · rw [locate, if_pos h]
    rfl
  · rw [locate, if_neg h]
    have hz : pos.toNat = 0 := by
      simp only [totalLength, build, buildAux, List.getLast?] at h
      omega
    rw [hz]
    rfl

theorem locate_ok_inv (segs : List TranscriptSegment) (pos : Int) (r : Nat × Nat)
    (h : locate (build segs) pos = .ok r) :
    segs ≠ [] ∧ 0 ≤ pos ∧ pos ≤ (lensum segs : Int) := by
  refine ⟨?_, ?_⟩
  · intro hemp
    subst hemp
    have := locate_empty pos
    rw [h] at this
    simp [Except.isOk, Except.toBool] at this
  · by_contra hcon
    rw [locate, if_pos (by rw [totalLength_build]; omega)] at h
    simp at h

theorem locateEnd_ok_inv (segs : List TranscriptSegment) (pos : Int) (r : Nat × Nat)
    (h : locateEnd (build segs) pos = .ok r) :
    0 ≤ pos ∧ pos ≤ (lensum segs : Int) := by
  by_contra hcon
  rw [locateEnd, if_pos (by rw [totalLength_build]; omega)] at h
  simp at h

/-! ### Time Interpolator facts -/

theorem text_length_ne_zero (s : String) (h : s ≠ "") : s.length ≠ 0 := by
  intro hl
  apply h
  apply String.ext
  cases s with
  | mk data =>
    have hd : data.length = 0 := hl
    exact List.length_eq_zero.mp hd

theorem interpolate_ge_start (seg : TranscriptSegment) (off : Nat) :
    seg.start_s ≤ interpolate seg off :=
  le_max_left _ _

theorem interpolate_le_end (seg : TranscriptSegment) (off : Nat)
    (h : seg.start_s ≤ seg.end_s) :
    interpolate seg off ≤ seg.end_s :=
  max_le h (min_le_left _ _)

theorem interpolate_zero (seg : TranscriptSegment) :
    interpolate seg 0 = seg.start_s := by
  simp only [interpolate, Nat.cast_zero, zero_div, zero_mul, add_zero]
  exact max_eq_left (min_le_right _ _)

theorem interpolate_mono (seg : TranscriptSegment) (h : seg.start_s ≤ seg.end_s)
    {a b : Nat} (hab : a ≤ b) :
    interpolate seg a ≤ interpolate seg b := by
  have hm : (0:ℚ) < max 1 (seg.text.length : ℚ) :=
    lt_of_lt_of_le one_pos (le_max_left _ _)
  have hdiv : (a : ℚ) / max 1 (seg.text.length : ℚ) ≤ (b : ℚ) / max 1 (seg.text.length : ℚ) := by
    rw [div_eq_mul_inv, div_eq_mul_inv]
    exact mul_le_mul_of_nonneg_right (by exact_mod_cast hab) (inv_nonneg.mpr hm.le)
  have hraw := add_le_add_left
    (mul_le_mul_of_nonneg_right hdiv (sub_nonneg.mpr h)) seg.start_s
  exact max_le_max le_rfl (min_le_min le_rfl hraw)

theorem interpolate_len (seg : TranscriptSegment) (h : seg.start_s ≤ seg.end_s)
    (hne : seg.text.length ≠ 0) :
    interpolate seg seg.text.length = seg.end_s := by
  have hone : (1:ℚ) ≤ (seg.text.length : ℚ) := by
    exact_mod_cast Nat.one_le_iff_ne_zero.mpr hne
  have hcast : (seg.text.length : ℚ) ≠ 0 := by
    intro hc
    exact hne (by exact_mod_cast hc)
  simp only [interpolate, max_eq_right hone]
  rw [div_self hcast, one_mul,
    show seg.start_s + (seg.end_s - seg.start_s) = seg.end_s from by ring, min_self]
  exact max_eq_right h

theorem interpolate_empty (seg : TranscriptSegment) (off : Nat)
    (hoff : off ≤ seg.text.length) (hempty : seg.text.length = 0) :
    interpolate seg off = seg.start_s := by
  have : off = 0 := by omega
  rw [this]
  exact interpolate_zero seg

/-! ### Segment-ordering facts -/

theorem segsSorted_iff (segs : List TranscriptSegment) :
    segsSorted segs = true ↔ List.Chain' (fun a b => a.start_s ≤ b.start_s) segs := by
  induction segs with
  | nil => simp [segsSorted]
  | cons a rest ih =>
    cases rest with
    | nil => simp [segsSorted]
    | cons b rest2 =>
      rw [segsSorted, List.chain'_cons, Bool.and_eq_true, decide_eq_true_eq, ih]

theorem segsNonNeg_iff (segs : List TranscriptSegment) :
    segsNonNeg segs = true ↔ ∀ s ∈ segs, s.start_s ≤ s.end_s := by
  rw [segsNonNeg, List.all_eq_true]
  simp only [decide_eq_true_eq]

theorem chain_end_le_start (segs : List TranscriptSegment)
    (hch : List.Chain' (fun a b => a.end_s ≤ b.start_s) segs)
    (hnn : ∀ s ∈ segs, s.start_s ≤ s.end_s) :
    ∀ d i, ∀ hi : i < segs.length, ∀ hj : i + d + 1 < segs.length,
      (segs.get ⟨i, hi⟩).end_s ≤ (segs.get ⟨i + d + 1, hj⟩).start_s := by
  have hstep := List.chain'_iff_get.mp hch
  intro d
  induction d with
  | zero =>
    intro i hi hj
    exact hstep i (by omega)
  | succ d ih =>
    intro i hi hj
    have h1 := ih i hi (by omega)
    have h2 : (segs.get ⟨i + d + 1, by omega⟩).start_s ≤
        (segs.get ⟨i + d + 1, by omega⟩).end_s :=
      hnn _ (List.get_mem segs (i + d + 1) (by omega))
    have h3 := hstep (i + d + 1) (by omega)
    exact le_trans h1 (le_trans h2 h3)

theorem chain_le_pair (segs : List TranscriptSegment)
    (hch : List.Chain' (fun a b => a.end_s ≤ b.start_s) segs)
    (hnn : ∀ s ∈ segs, s.start_s ≤ s.end_s)
    (i j : Nat) (hi : i < segs.length) (hij : i < j) (hj : j < segs.length) :
    (segs.get ⟨i, hi⟩).end_s ≤ (segs.get ⟨j, hj⟩).start_s := by
  have hc := chain_end_le_start segs hch hnn (j - i - 1) i hi (by omega)
  have hfin : (⟨i + (j - i - 1) + 1, by omega⟩ : Fin segs.length) = ⟨j, hj⟩ :=
    Fin.ext (by simp only []; omega)
  rw [hfin] at hc
  exact hc

/-! ### Extraction Mapper facts -/

theorem map_one_ok (segs : List TranscriptSegment) (hne : segs ≠ []) (ex : Extraction)
    (hin : inRange segs ex = true) :
    ∃ e, map_one (build segs) segs ex = .ok e := by
  have hin' : 0 ≤ ex.start_char ∧ ex.start_char ≤ (lensum segs : Int) ∧
      0 ≤ ex.end_char ∧ ex.end_char ≤ (lensum segs : Int) := by
    simpa [inRange, and_assoc] using hin
  obtain ⟨h1, h2, h3, h4⟩ := hin'
  obtain ⟨k1, off1, hl1, hk1, _, _⟩ := locate_ok segs hne ex.start_char h1 h2
  obtain ⟨k2, off2, hl2, hk2, _, _⟩ := locateEnd_ok segs hne ex.end_char h3 h4
  simp only [map_one, hl1, hl2, List.getElem?_eq_getElem hk1, List.getElem?_eq_getElem hk2]
  exact ⟨_, rfl⟩

theorem map_one_err (segs : List TranscriptSegment) (hne : segs ≠ []) (ex : Extraction)
    (hin : inRange segs ex = false) :
    ∃ p t, map_one (build segs) segs ex = .error (.rangeError p t) := by
  have hin' : ¬(0 ≤ ex.start_char ∧ ex.start_char ≤ (lensum segs : Int) ∧
      0 ≤ ex.end_char ∧ ex.end_char ≤ (lensum segs : Int)) := by
    intro hcon
    rw [show inRange segs ex = true by
      simpa [inRange, and_assoc] using hcon] at hin
    simp at hin
  by_cases hs : ex.start_char < 0 ∨ (lensum segs : Int) < ex.start_char
  · refine ⟨ex.start_char, lensum segs, ?_⟩
    simp only [map_one, locate_err segs ex.start_char hs]
  · have hs1 : 0 ≤ ex.start_char := by omega
    have hs2 : ex.start_char ≤ (lensum segs : Int) := by omega
    have he : ex.end_char < 0 ∨ (lensum segs : Int) < ex.end_char := by
      by_contra hcon
      exact hin' ⟨hs1, hs2, by omega, by omega⟩
    obtain ⟨k1, off1, hl1, _, _, _⟩ := locate_ok segs hne ex.start_char hs1 hs2
    refine ⟨ex.end_char, lensum segs, ?_⟩
    simp only [map_one, hl1, locateEnd_err segs ex.end_char he]

theorem mapBatch_spec (segs : List TranscriptSegment) (hne : segs ≠ [])
    (exts : List Extraction) :
    (mapBatch (build segs) segs exts).1.length =
      (exts.filter (fun ex => inRange segs ex)).length ∧
    (mapBatch (build segs) segs exts).2.length =
      (exts.filter (fun ex => !(inRange segs ex))).length ∧
    ∀ r ∈ (mapBatch (build segs) segs exts).2, ∃ p t, r.2 = MapError.rangeError p t := by
  induction exts with
  | nil => simp [mapBatch]
  | cons ex rest ih =>
    obtain ⟨ih1, ih2, ih3⟩ := ih
    by_cases hir : inRange segs ex = true
    · obtain ⟨e, he⟩ := map_one_ok segs hne ex hir
      refine ⟨?_, ?_, ?_⟩
      · simp [mapBatch, he, List.filter_cons, hir, ih1]
      · simp [mapBatch, he, List.filter_cons, hir, ih2]
      · intro r hr
        apply ih3
        simpa [mapBatch, he] using hr
    · have hir' : inRange segs ex = false := by
        simpa using hir
      obtain ⟨p, t, he⟩ := map_one_err segs hne ex hir'
      refine ⟨?_, ?_, ?_⟩
      · simp [mapBatch, he, List.filter_cons, hir', ih1]
      · simp [mapBatch, he, List.filter_cons, hir', ih2]
      · intro r hr
        rw [show mapBatch (build segs) segs (ex :: rest) =
          ((mapBatch (build segs) segs rest).1,
            (ex, MapError.rangeError p t) :: (mapBatch (build segs) segs rest).2) from by
          simp [mapBatch, he]] at hr
        simp only [List.mem_cons] at hr
        rcases hr with hr | hr
        · subst hr
          exact ⟨p, t, rfl⟩
        · exact ih3 r hr

theorem filter_length_split (exts : List Extraction) (p : Extraction → Bool) :
    (exts.filter p).length + (exts.filter (fun ex => !(p ex))).length = exts.length := by
  induction exts with
  | nil => rfl
  | cons ex rest ih =>
    by_cases h : p ex = true <;> simp [List.filter_cons, h] <;> omega

/-! ### Profile Aggregator facts -/

theorem totalCount_aggInsert (e : WorkflowEntity) (p : WorkflowProfile) :
    totalCount (aggInsert e p) = totalCount p + 1 := by
  simp only [aggInsert]
  split_ifs <;> simp [totalCount] <;> omega

theorem totalCount_aggregate (es : List WorkflowEntity) :
    totalCount (aggregate es) = es.length := by
  induction es with
  | nil => rfl
  | cons e rest ih => simp [aggregate, totalCount_aggInsert, ih]

theorem aggregate_planning_goals (es : List WorkflowEntity) :
    (aggregate es).planning_goals = es.filter (fun e => e.category == "planning_goal") := by
  induction es with
  | nil => rfl
  | cons e rest ih =>
    simp only [aggregate, aggInsert, List.filter_cons]
    split_ifs <;> simp_all

theorem aggregate_context_management (es : List WorkflowEntity) :
    (aggregate es).context_management =
      es.filter (fun e => e.category == "context_strategy") := by
  induction es with
  | nil => rfl
  | cons e rest ih =>
    simp only [aggregate, aggInsert, List.filter_cons]
    split_ifs <;> simp_all

theorem aggregate_guardrails (es : List WorkflowEntity) :
    (aggregate es).guardrails = es.filter (fun e => e.category == "guardrail") := by
  induction es with
  | nil => rfl
  | cons e rest ih =>
    simp only [aggregate, aggInsert, List.filter_cons]
    split_ifs <;> simp_all

theorem aggregate_iteration_style (es : List WorkflowEntity) :
    (aggregate es).iteration_style =
      es.filter (fun e => e.category == "iteration_pattern") := by
  induction es with
  | nil => rfl
  | cons e rest ih =>
    simp only [aggregate, aggInsert, List.filter_cons]
    split_ifs <;> simp_all

theorem aggregate_tools (es : List WorkflowEntity) :
    (aggregate es).tools = es.filter (fun e => e.category == "tool_usage") := by
  induction es with
  | nil => rfl
  | cons e rest ih =>
    simp only [aggregate, aggInsert, List.filter_cons]
    split_ifs <;> simp_all

theorem aggregate_orchestration (es : List WorkflowEntity) :
    (aggregate es).orchestration = es.filter (fun e => e.category == "orchestration") := by
  induction es with
  | nil => rfl
  | cons e rest ih =>
    simp only [aggregate, aggInsert, List.filter_cons]
    split_ifs <;> simp_all

theorem aggregate_deployment (es : List WorkflowEntity) :
    (aggregate es).deployment = es.filter (fun e => e.category == "deployment_step") := by
  induction es with
  | nil => rfl
  | cons e rest ih =>
    simp only [aggregate, aggInsert, List.filter_cons]
    split_ifs <;> simp_all

theorem aggregate_quotes (es : List WorkflowEntity) :
    (aggregate es).quotes = es.filter (fun e => e.category == "quote") := by
  induction es with
  | nil => rfl
  | cons e rest ih =>
    simp only [aggregate, aggInsert, List.filter_cons]
    split_ifs <;> simp_all

theorem aggregate_unclassified (es : List WorkflowEntity) :
    (aggregate es).unclassified =
      (es.filter (fun e => !(knownCategory e.category))).map unclassifiedTag := by
  induction es with
  | nil => rfl
  | cons e rest ih =>
    simp only [aggregate, aggInsert, List.filter_cons]
    split_ifs <;> simp_all [knownCategory]

/-! ### Claim theorems -/

/-- C3 (amended): for every extraction with `start_char < end_char` mapped
over a segment sequence that is sorted by non-decreasing `start_s`, has
`end_s >= start_s` per segment, and is non-overlapping (each segment's
`end_s` at most the next segment's `start_s`), the produced entity
satisfies `start_s <= end_s`. -/
theorem mapper_start_le_end (segs : List TranscriptSegment) (ex : Extraction)
    (e : WorkflowEntity)
    (_hs : segsSorted segs = true)
    (hnnb : segsNonNeg segs = true)
    (hch : List.Chain' (fun a b => a.end_s ≤ b.start_s) segs)
    (hlt : ex.start_char < ex.end_char)
    (hok : map_one (build segs) segs ex = .ok e) :
    e.start_s ≤ e.end_s := by
  have hnn : ∀ s ∈ segs, s.start_s ≤ s.end_s := (segsNonNeg_iff segs).mp hnnb
  cases hl1 : locate (build segs) ex.start_char with
  | error err => simp [map_one, hl1] at hok
  | ok r1 =>
    cases hl2 : locateEnd (build segs) ex.end_char with
    | error err => simp [map_one, hl1, hl2] at hok
    | ok r2 =>
      obtain ⟨k1, off1⟩ := r1
      obtain ⟨k2, off2⟩ := r2
      obtain ⟨hne, hs0, hs1⟩ := locate_ok_inv segs ex.start_char (k1, off1) hl1
      obtain ⟨he0, he1⟩ := locateEnd_ok_inv segs ex.end_char (k2, off2) hl2
      obtain ⟨k1', off1', hl1', hk1, hoff1, hsum1⟩ := locate_ok segs hne ex.start_char hs0 hs1
      obtain ⟨k2', off2', hl2', hk2, hoff2, hsum2⟩ := locateEnd_ok segs hne ex.end_char he0 he1
      rw [hl1] at hl1'
      rw [hl2] at hl2'
      simp only [Except.ok.injEq, Prod.mk.injEq] at hl1' hl2'
      obtain ⟨hk1e, hoff1e⟩ := hl1'
      obtain ⟨hk2e, hoff2e⟩ := hl2'
      subst hk1e
      subst hoff1e
      subst hk2e
      subst hoff2e
      simp only [map_one, hl1, hl2, List.getElem?_eq_getElem hk1,
        List.getElem?_eq_getElem hk2, Except.ok.injEq] at hok
      subst hok
      show interpolate segs[k1] off1 ≤ interpolate segs[k2] off2
      have hsN : ex.start_char.toNat < ex.end_char.toNat := by omega
      have hmem1 : segs[k1] ∈ segs := List.getElem_mem hk1
      rcases Nat.lt_trichotomy k1 k2 with h12 | h12 | h12
      · have hle1 : interpolate segs[k1] off1 ≤ segs[k1].end_s :=
          interpolate_le_end _ _ (hnn _ hmem1)
        have hpair := chain_le_pair segs hch hnn k1 k2 hk1 h12 hk2
        rw [List.get_eq_getElem, List.get_eq_getElem] at hpair
        have hle2 : segs[k2].start_s ≤ interpolate segs[k2] off2 :=
          interpolate_ge_start _ _
        exact le_trans hle1 (le_trans hpair hle2)
      · subst h12
        apply interpolate_mono _ (hnn _ hmem1)
        omega
      · exfalso
        have hmono := cumStartAt_mono segs (show k2 + 1 ≤ k1 from by omega)
        have hsucc := cumStartAt_succ segs k2 hk2
        omega

/-- C3 counterexample: over sorted segments with non-negative durations
(but overlapping time spans), an extraction with `start_char < end_char`
maps to an entity whose `end_s` is strictly below its `start_s`, so the
claimed guarantee fails as stated. -/
theorem mapper_start_le_end_cex :
    segsSorted segOverlap = true ∧ segsNonNeg segOverlap = true ∧
    exOverlap.start_char < exOverlap.end_char ∧
    map_one (build segOverlap) segOverlap exOverlap = .ok entOverlap ∧
    entOverlap.end_s < entOverlap.start_s := by
  refine ⟨by decide, by decide, by decide, ?_, by decide⟩
  have h1 : locate (build segOverlap) exOverlap.start_char = .ok (0, 9) := rfl
  have h2 : locateEnd (build segOverlap) exOverlap.end_char = .ok (1, 2) := rfl
  have g0 : segOverlap[0]? = some ⟨0, 100, "A", "aaaaaaaaaa"⟩ := rfl
  have g1 : segOverlap[1]? = some ⟨10, 20, "B", "bbbb"⟩ := rfl
  simp only [map_one, h1, h2, g0, g1, Except.ok.injEq, entOverlap,
    WorkflowEntity.mk.injEq]
  norm_num [interpolate, exOverlap, show ("aaaaaaaaaa" : String).length = 10 from rfl,
    show ("bbbb" : String).length = 4 from rfl]

/-- C3 witness: the spec scenario extraction "world" maps successfully
over the scenario segments and the ordering guarantee applies to it. -/
theorem mapper_start_le_end_witness :
    ∃ e, map_one (build segW) segW exGood = .ok e ∧ e.start_s ≤ e.end_s := by
  obtain ⟨e, he⟩ := map_one_ok segW (by decide) exGood (by decide)
  refine ⟨e, he, ?_⟩
  exact mapper_start_le_end segW exGood e (by decide) (by decide)
    (by norm_num [segW, List.chain'_cons, List.chain'_singleton]) (by decide) he

/-- C1 (amended): for every non-empty segment sequence and every
character position `p` in `[0, total_length]`, `locate` over the built
index returns a segment index and local offset whose cumulative start
offset plus local offset reconstructs `p`. -/
theorem index_roundtrip (segs : List TranscriptSegment) (hne : segs ≠ [])
    (p : Nat) (hp : p ≤ lensum segs) :
    ∃ k off, locate (build segs) ((p : Nat) : Int) = .ok (k, off) ∧ k < segs.length ∧
      cumStartAt segs k + off = p := by
  obtain ⟨k, off, hl, hk, hoff, hsum⟩ := locate_ok segs hne ((p : Nat) : Int)
    (by omega) (by exact_mod_cast hp)
  exact ⟨k, off, hl, hk, by omega⟩

/-- C1 counterexample: for the empty segment sequence, position 0 lies in
`[0, total_length]` yet `locate` returns no pair at all, so the claim
fails as stated over all segment sequences. -/
theorem index_roundtrip_cex :
    totalLength (build ([] : List TranscriptSegment)) = 0 ∧
    (locate (build ([] : List TranscriptSegment)) 0).isOk = false :=
  ⟨rfl, rfl⟩

/-- C1 witness: the round trip at the interior boundary position 11 of
the spec scenario transcript. -/
theorem index_roundtrip_witness :
    ∃ k off, locate (build segW) ((11 : Nat) : Int) = .ok (k, off) ∧ k < segW.length ∧
      cumStartAt segW k + off = 11 :=
  index_roundtrip segW (by decide) 11 (by decide)

/-- C2: an `end_char` equal to a non-empty segment's cumulative end
resolves to that segment (the one it closes) with the segment's full text
length as local offset, not to the next segment. -/
theorem end_boundary_tiebreak (segs : List TranscriptSegment) (k : Nat)
    (hk : k < segs.length) (hlen : lenAt segs k ≠ 0) :
    locateEnd (build segs) ((cumStartAt segs k + lenAt segs k : Nat) : Int) =
      .ok (k, lenAt segs k) := by
  have hcum : cumStartAt segs (k + 1) = cumStartAt segs k + lenAt segs k :=
    cumStartAt_succ segs k hk
  have hle : cumStartAt segs (k + 1) ≤ lensum segs := cumStartAt_le_lensum segs (k + 1)
  have hrange : ¬(((cumStartAt segs k + lenAt segs k : Nat) : Int) < 0 ∨
      (totalLength (build segs) : Int) < ((cumStartAt segs k + lenAt segs k : Nat) : Int)) := by
    rw [totalLength_build]
    omega
  obtain ⟨j, hj, hfind, hlo, hhi⟩ :=
    findCloser_buildAux segs 0 0 (cumStartAt segs k + lenAt segs k) (by omega) (by omega)
  have hjk : j = k := by
    rcases Nat.lt_trichotomy j k with hjlt | hjeq | hjgt
    · exfalso
      have hsucc := cumStartAt_succ segs j hj
      have hmono := cumStartAt_mono segs (show j + 1 ≤ k from by omega)
      omega
    · exact hjeq
    · exfalso
      have hmono := cumStartAt_mono segs (show k + 1 ≤ j from by omega)
      omega
  subst hjk
  rw [locateEnd, if_neg hrange,
    if_neg (show ¬(((cumStartAt segs j + lenAt segs j : Nat) : Int).toNat = 0) from by omega),
    show (((cumStartAt segs j + lenAt segs j : Nat) : Int)).toNat =
      cumStartAt segs j + lenAt segs j from by omega,
    show build segs = buildAux 0 0 segs from rfl]
  simp only [hfind]
  exact congrArg Except.ok (congrArg₂ Prod.mk (by omega) (by omega))

/-- C2 witness: in the spec scenario, `end_char = 11` is segment 0's
cumulative end; it resolves to segment 0 with local offset 11 and the
interpolated end time is exactly second 10. -/
theorem end_boundary_tiebreak_witness :
    locateEnd (build segW) ((cumStartAt segW 0 + lenAt segW 0 : Nat) : Int) =
      .ok (0, lenAt segW 0) ∧
    cumStartAt segW 0 + lenAt segW 0 = 11 ∧
    interpolate ⟨0, 10, "A", "hello world"⟩ 11 = 10 := by
  refine ⟨end_boundary_tiebreak segW 0 (by decide) (by decide), by decide, ?_⟩
  norm_num [interpolate, show ("hello world" : String).length = 11 from rfl]

/-- C4 (amended): over a non-empty segment sequence passing the
fail-fast validation, a batch of N extractions of which M have an offset
outside `[0, total_length]` maps to exactly N - M entities and exactly M
skip records, each skip citing a `rangeError`; nothing is dropped
silently and the call never fails. -/
theorem mapper_totality (segs : List TranscriptSegment) (exts : List Extraction)
    (hne : segs ≠ []) (hs : segsSorted segs = true) (hn : segsNonNeg segs = true) :
    ∃ entities skips,
      map_all segs exts = .ok (entities, skips) ∧
      entities.length = exts.length - (exts.filter (fun ex => !(inRange segs ex))).length ∧
      skips.length = (exts.filter (fun ex => !(inRange segs ex))).length ∧
      entities.length + skips.length = exts.length ∧
      ∀ r ∈ skips, ∃ p t, r.2 = MapError.rangeError p t := by
  obtain ⟨h1, h2, h3⟩ := mapBatch_spec segs hne exts
  have hsplit := filter_length_split exts (fun ex => inRange segs ex)
  refine ⟨(mapBatch (build segs) segs exts).1, (mapBatch (build segs) segs exts).2,
    ?_, by omega, by omega, by omega, h3⟩
  rw [map_all, if_pos (by rw [hs, hn]; rfl)]

/-- C4 counterexample: with no segments at all, the empty-span extraction
at offset 0 has both offsets inside `[0, total_length]` (that is, M = 0),
yet the batch call returns 0 entities and 1 skip record instead of the
claimed N - M = 1 entities and 0 skips. -/
theorem mapper_totality_cex :
    segsSorted [] = true ∧ segsNonNeg [] = true ∧ inRange [] exZero = true ∧
    map_all [] [exZero] = .ok ([], [(exZero, MapError.rangeError 0 0)]) :=
  ⟨rfl, rfl, by decide, rfl⟩

/-- C4 witness: the scenario segments with one in-range and one
out-of-range extraction. -/
theorem mapper_totality_witness :
    ∃ entities skips,
      map_all segW [exGood, exBad] = .ok (entities, skips) ∧
      entities.length =
        [exGood, exBad].length -
          ([exGood, exBad].filter (fun ex => !(inRange segW ex))).length ∧
      skips.length = ([exGood, exBad].filter (fun ex => !(inRange segW ex))).length ∧
      entities.length + skips.length = [exGood, exBad].length ∧
      ∀ r ∈ skips, ∃ p t, r.2 = MapError.rangeError p t :=
  mapper_totality segW [exGood, exBad] (by decide) (by decide) (by decide)

/-- C5: a segment sequence that is not sorted by non-decreasing start
time, or contains a negative-duration segment, makes the whole mapping
call fail with a `dataError` before any extraction is processed: no
entity and no skip record is produced. -/
theorem bad_segments_fail_fast (segs : List TranscriptSegment) (exts : List Extraction)
    (h : ¬ List.Chain' (fun a b => a.start_s ≤ b.start_s) segs ∨
      ∃ s ∈ segs, s.end_s < s.start_s) :
    map_all segs exts = .error MapError.dataError := by
  have hcond : ¬((segsSorted segs && segsNonNeg segs) = true) := by
    rcases h with h | ⟨s, hsm, hsl⟩
    · intro hc
      rw [Bool.and_eq_true] at hc
      exact h ((segsSorted_iff segs).mp hc.1)
    · intro hc
      rw [Bool.and_eq_true] at hc
      exact absurd ((segsNonNeg_iff segs).mp hc.2 s hsm) (not_le.mpr hsl)
  rw [map_all, if_neg hcond]

/-- C5 witness: unsorted segments fail fast even with a pending
extraction in the batch. -/
theorem bad_segments_fail_fast_witness :
    map_all segUnsorted [exGood] = .error MapError.dataError :=
  bad_segments_fail_fast segUnsorted [exGood] (Or.inl (by
    intro hch
    rw [segUnsorted, List.chain'_cons] at hch
    have h1 := hch.1
    norm_num at h1))

/-- C6: the aggregator is complete: the total count across all buckets
(the catch-all included) equals the input length, and every bucket is
exactly the input's entities of that category in input order; entities
with a category outside the fixed closed set land in the catch-all
bucket, tagged with their original category name as an attribute. -/
theorem aggregator_completeness (es : List WorkflowEntity) :
    totalCount (aggregate es) = es.length ∧
    (aggregate es).planning_goals = es.filter (fun e => e.category == "planning_goal") ∧
    (aggregate es).context_management =
      es.filter (fun e => e.category == "context_strategy") ∧
    (aggregate es).guardrails = es.filter (fun e => e.category == "guardrail") ∧
    (aggregate es).iteration_style =
      es.filter (fun e => e.category == "iteration_pattern") ∧
    (aggregate es).tools = es.filter (fun e => e.category == "tool_usage") ∧
    (aggregate es).orchestration = es.filter (fun e => e.category == "orchestration") ∧
    (aggregate es).deployment = es.filter (fun e => e.category == "deployment_step") ∧
    (aggregate es).quotes = es.filter (fun e => e.category == "quote") ∧
    (aggregate es).unclassified =
      (es.filter (fun e => !(knownCategory e.category))).map unclassifiedTag :=
  ⟨totalCount_aggregate es, aggregate_planning_goals es, aggregate_context_management es,
    aggregate_guardrails es, aggregate_iteration_style es, aggregate_tools es,
    aggregate_orchestration es, aggregate_deployment es, aggregate_quotes es,
    aggregate_unclassified es⟩

/-- C7 (amended): `interpolate` equals the clamped linear-interpolation
formula; on an empty-text segment it never divides by zero and returns
`start_s` for every in-bounds offset; offset 0 always maps to `start_s`;
and for a valid segment with non-empty text the offset `length(text)`
maps to `end_s` (a valid silent segment — empty text, positive duration —
necessarily returns `start_s` instead, which is the needed amendment). -/
theorem interpolate_props (seg : TranscriptSegment) (off : Nat)
    (hoff : off ≤ seg.text.length) :
    interpolate seg off =
      max seg.start_s (min seg.end_s
        (seg.start_s + ((off : ℚ) / max 1 (seg.text.length : ℚ)) *
          (seg.end_s - seg.start_s))) ∧
    (seg.text = "" → interpolate seg off = seg.start_s) ∧
    interpolate seg 0 = seg.start_s ∧
    (seg.start_s ≤ seg.end_s → seg.text ≠ "" →
      interpolate seg seg.text.length = seg.end_s) := by
  refine ⟨rfl, ?_, interpolate_zero seg, ?_⟩
  · intro hemp
    refine interpolate_empty seg off hoff ?_
    rw [hemp]
    rfl
  · intro hval hne
    exact interpolate_len seg hval (text_length_ne_zero seg.text hne)

/-- C7 counterexample: the silent segment (empty text, seconds 0 to 5)
is valid — `end_s >= start_s` — yet interpolating at offset
`length(text)` returns `start_s = 0`, not `end_s = 5`, refuting the
claimed `interpolate(segment, length(text)) == end_s` for every valid
segment. -/
theorem interpolate_props_cex :
    segSilent.start_s ≤ segSilent.end_s ∧
    interpolate segSilent segSilent.text.length ≠ segSilent.end_s := by
  constructor
  · decide
  · rw [show segSilent.text.length = 0 from rfl, interpolate_zero]
    decide

/-- C7 witness: the four properties at a two-character segment spanning
seconds 0 to 10, offset 1. -/
theorem interpolate_props_witness :
    interpolate ⟨0, 10, "A", "ab"⟩ 0 = 0 ∧
    interpolate ⟨0, 10, "A", "ab"⟩ (("ab" : String).length) = 10 := by
  have h := interpolate_props ⟨0, 10, "A", "ab"⟩ 1 (by decide)
  exact ⟨h.2.2.1, h.2.2.2 (by decide) (by decide)⟩

/-- C8: a global position exactly at a cumulative segment boundary
resolves to a segment that starts at that position with local offset 0
and non-empty text (so a zero-length segment at the boundary is skipped
in favour of the non-zero-length segment claiming the position); the
position `total_length` instead resolves to the last non-empty segment,
clamped to its text length. -/
theorem locate_boundary_tiebreak (segs : List TranscriptSegment) (k : Nat)
    (_hk : k ≤ segs.length) :
    (cumStartAt segs k < lensum segs →
      ∃ j, locate (build segs) ((cumStartAt segs k : Nat) : Int) = .ok (j, 0) ∧
        cumStartAt segs j = cumStartAt segs k ∧ lenAt segs j ≠ 0) ∧
    (lensum segs ≠ 0 →
      ∃ j, locate (build segs) ((lensum segs : Nat) : Int) = .ok (j, lenAt segs j) ∧
        lenAt segs j ≠ 0 ∧ cumStartAt segs j + lenAt segs j = lensum segs) := by
  constructor
  · intro hlt
    obtain ⟨j, hj, hloc, hlo, hhi⟩ := locateNat_lt segs (cumStartAt segs k) hlt
    have hrange : ¬(((cumStartAt segs k : Nat) : Int) < 0 ∨
        (totalLength (build segs) : Int) < ((cumStartAt segs k : Nat) : Int)) := by
      rw [totalLength_build]
      omega
    have hj0 : cumStartAt segs j = cumStartAt segs k := by
      rcases Nat.lt_trichotomy j k with hjlt | hjeq | hjgt
      · exfalso
        have hsucc := cumStartAt_succ segs j hj
        have hmono := cumStartAt_mono segs (show j + 1 ≤ k from by omega)
        omega
      · rw [hjeq]
      · have hmono := cumStartAt_mono segs (show k ≤ j from by omega)
        omega
    refine ⟨j, ?_, hj0, by omega⟩
    rw [locate, if_neg hrange,
      show (((cumStartAt segs k : Nat) : Int)).toNat = cumStartAt segs k from by omega, hloc]
    exact congrArg Except.ok (congrArg₂ Prod.mk rfl (by omega))
  · intro hz
    obtain ⟨j, hj, hloc, hlen, hsum⟩ := locateNat_total segs hz
    have hrange : ¬(((lensum segs : Nat) : Int) < 0 ∨
        (totalLength (build segs) : Int) < ((lensum segs : Nat) : Int)) := by
      rw [totalLength_build]
      omega
    refine ⟨j, ?_, hlen, hsum⟩
    rw [locate, if_neg hrange,
      show (((lensum segs : Nat) : Int)).toNat = lensum segs from by omega, hloc]

/-- C8 witness: the boundary at position 11 of the spec scenario
transcript resolves to the segment starting there. -/
theorem locate_boundary_tiebreak_witness :
    ∃ j, locate (build segW) ((cumStartAt segW 1 : Nat) : Int) = .ok (j, 0) ∧
      cumStartAt segW j = cumStartAt segW 1 ∧ lenAt segW j ≠ 0 :=
  (locate_boundary_tiebreak segW 1 (by decide)).1 (by decide)

/-- C9: `build` maps the empty input to the empty index and in general
returns one triple per segment, in order, whose cumulative start equals
the sum of the preceding text lengths and whose cumulative end adds the
segment's own text length; being a total function it has no failure
modes. -/
theorem build_shape (segs : List TranscriptSegment) :
    build ([] : List TranscriptSegment) = [] ∧
    (build segs).length = segs.length ∧
    ∀ k s, segs[k]? = some s →
      (build segs)[k]? =
        some (IndexEntry.mk k (cumStartAt segs k) (cumStartAt segs k + s.text.length)) := by
  refine ⟨rfl, build_length segs, ?_⟩
  intro k s hk
  simpa using buildAux_getElem segs 0 0 k s hk

/-- C9 witness: the second triple of the scenario index. -/
theorem build_shape_witness :
    (build segW)[1]? =
      some (IndexEntry.mk 1 (cumStartAt segW 1)
        (cumStartAt segW 1 + ("goodbye" : String).length)) :=
  (build_shape segW).2.2 1 ⟨10, 20, "B", "goodbye"⟩ (by decide)

/-- C10: under the blueprint's lookup rule
`cum_start_char[k] <= pos < cum_start_char[k] + len(text_k)`, the
position equal to the total concatenated length — a valid `end_char` —
satisfies the condition for no segment, so an extraction reaching the
very end of the transcript finds no owning segment. -/
theorem blueprint_end_position_unowned (segs : List TranscriptSegment)
    (_hne : segs ≠ []) :
    (∀ e ∈ build segs, ¬(e.cumStart ≤ lensum segs ∧ lensum segs < e.cumEnd)) ∧
    findOwner (lensum segs) (build segs) = none := by
  have hmem : ∀ e ∈ build segs, e.cumEnd ≤ lensum segs := by
    intro e he
    simpa using cumEnd_le_of_mem_buildAux segs 0 0 e he
  refine ⟨?_, ?_⟩
  · intro e he hcon
    exact absurd hcon.2 (not_lt.mpr (hmem e he))
  · exact findOwner_eq_none _ _ (fun e he hcon => absurd hcon.2 (not_lt.mpr (hmem e he)))

/-- C10 witness: position 18 (the total length) of the scenario
transcript is owned by no segment under the blueprint rule. -/
theorem blueprint_end_position_unowned_witness :
    findOwner (lensum segW) (build segW) = none :=
  (blueprint_end_position_unowned segW (by decide)).2

end Pipeline
